import Mathlib

/-!
Verification of the PPG (Phasic Policy Gradient) trainer in `rlydoe/ppg.py`.

The numeric code operates on floating-point tensors; we embed the arithmetic
over `ℚ` (exact field arithmetic), element-wise over `List ℚ`, which captures
the algebraic content of the spec's claims.  Torch primitives used by the
source are embedded by their documented semantics:
`clamp x lo hi = min (max x lo) hi`, `mean` = sum divided by length,
unbiased `std` = square root of (sum of squared deviations over `n - 1`),
`torch.cat` fails on an empty list of tensors.
-/

namespace Rlydoe

/-- A per-step transition record as stored in the trajectory buffer
(`Memory` namedtuple in `ppg.py`), restricted to the fields the
advantage estimator reads: `reward`, `done`, `value`. -/
structure Transition where
  reward : ℚ
  done : Bool
  value : ℚ
deriving DecidableEq, Repr

/-- `masks.append(1 - float(mem.done))` in `PPG.learn` (line 196). -/
def maskOf (t : Transition) : ℚ :=
  1 - (if t.done then 1 else 0)

/-- `values[i+1]` as read by the loop body at line 207: the value recorded
for the transition following the current one, or the bootstrap `next_value`
appended at line 202 when the current transition is the last. -/
def headValue (nextValue : ℚ) : List Transition → ℚ
  | [] => nextValue
  | t :: _ => t.value

/-- The reverse-order GAE loop of `PPG.learn` (lines 204-209), as structural
recursion on the transition list: processing `t :: rest` first runs the loop
over the higher indices (`rest`), receiving the accumulated `gae` and the
returns already prepended, then performs the body for the head index using
`values[i+1]` (the first value of `rest`, or the bootstrap value when the
head is the last transition).  Result: (final `gae`, the `returns` list). -/
def gaeFold (gamma lam nextValue : ℚ) : List Transition → ℚ × List ℚ
  | [] => (0, [])
  | t :: rest =>
    let p := gaeFold gamma lam nextValue rest
    let delta := t.reward + gamma * headValue nextValue rest * maskOf t - t.value
    let gae := delta + gamma * lam * maskOf t * p.fst
    (gae, (gae + t.value) :: p.snd)

/-- The `returns` list computed by `PPG.learn` from a trajectory buffer and
the bootstrap value `next_value` (lines 199-209). -/
def computeReturns (gamma lam : ℚ) (memories : List Transition) (nextValue : ℚ) : List ℚ :=
  (gaeFold gamma lam nextValue memories).snd

/-- The extended value list `values + [next_value]` built at line 202. -/
def valuesExt (memories : List Transition) (nextValue : ℚ) : List ℚ :=
  memories.map Transition.value ++ [nextValue]

/-- Spec-side recurrence, written from the spec's words (section 4.1):
`gaeSpecFromEnd ... T k` is the value of `gae` after the loop has processed
the `k` highest indices, i.e. `i = T-1` down to `i = T-k`; `gae` starts at
`0` and step `i` performs
`delta_i = reward_i + gamma * value_(i+1) * mask_i - value_i` and
`gae := delta_i + gamma * lambda * mask_i * gae`. -/
def gaeSpecFromEnd (gamma lam : ℚ) (rewards masks vExt : List ℚ) (T : ℕ) : ℕ → ℚ
  | 0 => 0
  | k + 1 =>
    let i := T - (k + 1)
    let delta := rewards.getD i 0 + gamma * vExt.getD (i + 1) 0 * masks.getD i 0 - vExt.getD i 0
    delta + gamma * lam * masks.getD i 0 * gaeSpecFromEnd gamma lam rewards masks vExt T k

/-- Shifting the spec recurrence past a common head element: for loop
positions that do not reach index `0` of the extended lists, prepending one
element to every list (and growing `T` by one) does not change the value. -/
theorem gaeSpecFromEnd_cons (gamma lam r m v : ℚ) (rewards masks vExt : List ℚ) (T : ℕ) :
    ∀ k, k ≤ T →
      gaeSpecFromEnd gamma lam (r :: rewards) (m :: masks) (v :: vExt) (T + 1) k
        = gaeSpecFromEnd gamma lam rewards masks vExt T k := by
  intro k
  induction k with
  | zero => intro _; rfl
  | succ k ih =>
    intro hk
    have h1 : T + 1 - (k + 1) = (T - (k + 1)) + 1 := by omega
    simp only [gaeSpecFromEnd, h1, List.getD_cons_succ]
    rw [ih (by omega)]

theorem headValue_eq (nextValue : ℚ) (l : List Transition) :
    headValue nextValue l = (valuesExt l nextValue).getD 0 0 := by
  cases l <;> rfl

theorem valuesExt_cons (t : Transition) (rest : List Transition) (nextValue : ℚ) :
    valuesExt (t :: rest) nextValue = t.value :: valuesExt rest nextValue := rfl

/-- The accumulated `gae` of the embedded loop equals the spec recurrence run
over all `T` indices. -/
theorem gaeFold_fst (gamma lam nextValue : ℚ) :
    ∀ memories : List Transition,
      (gaeFold gamma lam nextValue memories).fst
        = gaeSpecFromEnd gamma lam (memories.map Transition.reward) (memories.map maskOf)
            (valuesExt memories nextValue) memories.length memories.length := by
  intro memories
  induction memories with
  | nil => rfl
  | cons t rest ih =>
    have hshift := gaeSpecFromEnd_cons gamma lam t.reward (maskOf t) t.value
      (rest.map Transition.reward) (rest.map maskOf) (valuesExt rest nextValue)
      rest.length rest.length le_rfl
    simp only [gaeFold, List.map_cons, valuesExt_cons, List.length_cons]
    simp only [gaeSpecFromEnd, Nat.sub_self, Nat.add_sub_cancel_left, List.getD_cons_zero,
      List.getD_cons_succ, zero_add]
    rw [hshift, ← ih, headValue_eq]

theorem gaeFold_snd_length (gamma lam nextValue : ℚ) :
    ∀ memories : List Transition,
      (gaeFold gamma lam nextValue memories).snd.length = memories.length := by
  intro memories
  induction memories with
  | nil => rfl
  | cons t rest ih => simp only [gaeFold, List.length_cons, ih]

theorem gaeFold_snd_getD (gamma lam nextValue : ℚ) :
    ∀ (memories : List Transition) (i : ℕ), i < memories.length →
      (gaeFold gamma lam nextValue memories).snd.getD i 0
        = gaeSpecFromEnd gamma lam (memories.map Transition.reward) (memories.map maskOf)
            (valuesExt memories nextValue) memories.length (memories.length - i)
          + (valuesExt memories nextValue).getD i 0 := by
  intro memories
  induction memories with
  | nil => intro i hi; exact absurd hi (Nat.not_lt_zero i)
  | cons t rest ih =>
    intro i hi
    match i with
    | 0 =>
      have hfst := gaeFold_fst gamma lam nextValue (t :: rest)
      simp only [gaeFold, List.map_cons, valuesExt_cons, List.length_cons, Nat.sub_zero,
        List.getD_cons_zero] at hfst ⊢
      rw [hfst]
    | i + 1 =>
      have hi2 : i < rest.length := by simpa using hi
      have hshift := gaeSpecFromEnd_cons gamma lam t.reward (maskOf t) t.value
        (rest.map Transition.reward) (rest.map maskOf) (valuesExt rest nextValue)
        rest.length (rest.length - i) (by omega)
      have hstep : rest.length + 1 - (i + 1) = rest.length - i := by omega
      simp only [gaeFold, List.map_cons, valuesExt_cons, List.length_cons,
        List.getD_cons_succ, hstep]
      rw [hshift]
      exact ih i hi2

/-- Entries of a replicated list read through `getD`. -/
theorem replicate_getD (a : ℚ) : ∀ (n i : ℕ), i < n → (List.replicate n a).getD i 0 = a := by
  intro n
  induction n with
  | zero => intro i hi; exact absurd hi (Nat.not_lt_zero i)
  | succ n ih =>
    intro i hi
    match i with
    | 0 => rfl
    | i + 1 => exact ih i (by omega)

/-- With `gamma = lam = 1`, all rewards `0` and all `done = false`, the loop
telescopes: the accumulated `gae` is the bootstrap value minus the value of
the next unprocessed transition, and every emitted return is the bootstrap. -/
theorem gaeFold_zero_rewards (nextValue : ℚ) :
    ∀ memories : List Transition,
      (∀ t ∈ memories, t.reward = 0 ∧ t.done = false) →
      gaeFold 1 1 nextValue memories
        = (nextValue - headValue nextValue memories,
           List.replicate memories.length nextValue) := by
  intro memories
  induction memories with
  | nil => intro _; simp [gaeFold, headValue]
  | cons t rest ih =>
    intro h
    have ht := h t (List.mem_cons_self t rest)
    have hrest : ∀ t2 ∈ rest, t2.reward = 0 ∧ t2.done = false :=
      fun t2 ht2 => h t2 (List.mem_cons_of_mem t ht2)
    have hmask : maskOf t = 1 := by
      simp [maskOf, ht.2]
    simp only [gaeFold, ih hrest, List.length_cons, List.replicate_succ, Prod.mk.injEq,
      hmask, ht.1, headValue, List.cons.injEq]
    exact ⟨by ring, by ring, trivial⟩

/-- C1: `PPG.learn` computes, from `T` transitions and a bootstrap value,
exactly `T` returns in input order, and the `i`-th return is
`gae_i + value_i` where `gae_i` is given by the spec's reverse-order
recurrence `gae = delta_i + gamma * lambda * mask_i * gae` (with `gae`
initialized to `0`, `delta_i = reward_i + gamma * value_(i+1) * mask_i -
value_i`, `mask_i = 1 - done_i`, `value_T` the bootstrap). -/
theorem learn_returns_follow_gae_recurrence (gamma lam nextValue : ℚ)
    (memories : List Transition) :
    (computeReturns gamma lam memories nextValue).length = memories.length ∧
    ∀ i, i < memories.length →
      (computeReturns gamma lam memories nextValue).getD i 0
        = gaeSpecFromEnd gamma lam (memories.map Transition.reward) (memories.map maskOf)
            (valuesExt memories nextValue) memories.length (memories.length - i)
          + (valuesExt memories nextValue).getD i 0 :=
  ⟨gaeFold_snd_length gamma lam nextValue memories,
   fun i hi => gaeFold_snd_getD gamma lam nextValue memories i hi⟩

/-- Witness for C1 at a concrete two-step trajectory. -/
theorem learn_returns_follow_gae_recurrence_witness :
    (computeReturns (1/2) (1/3) [⟨1, false, 2⟩, ⟨3, true, 4⟩] 5).getD 0 0
      = gaeSpecFromEnd (1/2) (1/3) [1, 3] [1, 0] [2, 4, 5] 2 2 + 2 := by
  have h := (learn_returns_follow_gae_recurrence (1/2) (1/3) 5
      [⟨1, false, 2⟩, ⟨3, true, 4⟩]).2 0 (by decide)
  simpa [maskOf, valuesExt] using h

/-- C5: for a single-step trajectory whose only transition is terminal
(`done = true`), the computed return is exactly the recorded reward,
whatever the bootstrap value, `gamma`, `lam` and the recorded value. -/
theorem single_step_done_return_eq_reward (gamma lam nextValue reward value : ℚ) :
    computeReturns gamma lam [⟨reward, true, value⟩] nextValue = [reward] := by
  simp only [computeReturns, gaeFold, headValue, maskOf, List.cons.injEq, and_true]
  norm_num

/-- C6: with all-zero rewards, no terminal step, and `gamma = lam = 1`,
every computed return equals the bootstrap value. -/
theorem zero_reward_returns_eq_bootstrap (nextValue : ℚ) (memories : List Transition)
    (h : ∀ t ∈ memories, t.reward = 0 ∧ t.done = false) :
    computeReturns 1 1 memories nextValue = List.replicate memories.length nextValue ∧
    ∀ i, i < memories.length →
      (computeReturns 1 1 memories nextValue).getD i 0 = nextValue := by
  have hfold := gaeFold_zero_rewards nextValue memories h
  constructor
  · simp [computeReturns, hfold]
  · intro i hi
    rw [show computeReturns 1 1 memories nextValue
          = List.replicate memories.length nextValue by simp [computeReturns, hfold]]
    exact replicate_getD nextValue memories.length i hi

/-- Witness for C6 at a concrete two-step trajectory. -/
theorem zero_reward_returns_eq_bootstrap_witness :
    computeReturns 1 1 [⟨0, false, 7⟩, ⟨0, false, 9⟩] 3 = [3, 3] := by
  have h := (zero_reward_returns_eq_bootstrap 3 [⟨0, false, 7⟩, ⟨0, false, 9⟩]
      (by decide)).1
  simpa using h

/-- `torch.clamp(x, lo, hi)`, by its documented formula `min(max(x, lo), hi)`. -/
def clamp (x lo hi : ℚ) : ℚ := min (max x lo) hi

/-- `torch.mean` of a vector: sum divided by length. -/
def tmean (l : List ℚ) : ℚ := l.sum / l.length

/-- `clipped_value_loss` (ppg.py lines 123-127):
`value_clipped = old_values + clamp(values - old_values, -clip, clip)`,
then the mean of the element-wise `max` of the squared errors of the
clipped and unclipped estimates against `rewards` (the return targets). -/
def clippedValueLoss (values rewards oldValues : List ℚ) (clip : ℚ) : ℚ :=
  let valueClipped := List.zipWith (fun v ov => ov + clamp (v - ov) (-clip) clip) values oldValues
  let valueLoss1 := List.zipWith (fun vc r => (vc - r) ^ 2) valueClipped rewards
  let valueLoss2 := List.zipWith (fun v r => (v - r) ^ 2) values rewards
  tmean (List.zipWith max valueLoss1 valueLoss2)

theorem clamp_of_abs_le (x c : ℚ) (h : |x| ≤ c) : clamp x (-c) c = x := by
  rw [abs_le] at h
  rw [clamp, max_eq_left h.1, min_eq_left h.2]

/-- When every current estimate is within `clip` of its pre-update estimate,
the clipping at line 124 is the identity. -/
theorem valueClipped_eq (clip : ℚ) :
    ∀ vs ovs : List ℚ, vs.length = ovs.length →
      (∀ j, j < vs.length → |vs.getD j 0 - ovs.getD j 0| ≤ clip) →
      List.zipWith (fun v ov => ov + clamp (v - ov) (-clip) clip) vs ovs = vs := by
  intro vs
  induction vs with
  | nil => intro ovs _ _; rfl
  | cons v vs ih =>
    intro ovs hlen h
    match ovs with
    | [] => simp at hlen
    | ov :: ovs =>
      have h0 := h 0 (by simp)
      simp only [List.getD_cons_zero] at h0
      simp only [List.zipWith_cons_cons, List.cons.injEq]
      refine ⟨by rw [clamp_of_abs_le _ clip h0]; ring, ?_⟩
      refine ih ovs (by simpa using hlen) (fun j hj => ?_)
      have hj2 := h (j + 1) (by simpa using Nat.succ_lt_succ hj)
      simpa using hj2

theorem zipWith_max_self : ∀ l : List ℚ, List.zipWith max l l = l := by
  intro l
  induction l with
  | nil => rfl
  | cons x xs ih => simp [ih]

/-- C3: whenever every component of `values` lies within `clip` of the
corresponding `old_values` component, the clipped value loss degenerates to
the plain mean squared error `mean((values - returns)^2)`. -/
theorem clipped_value_loss_in_band (values rewards oldValues : List ℚ) (clip : ℚ)
    (hlen1 : values.length = oldValues.length)
    (hlen2 : values.length = rewards.length)
    (hband : ∀ j, j < values.length → |values.getD j 0 - oldValues.getD j 0| ≤ clip) :
    clippedValueLoss values rewards oldValues clip
      = tmean (List.zipWith (fun v r => (v - r) ^ 2) values rewards) := by
  simp only [clippedValueLoss]
  rw [valueClipped_eq clip values oldValues hlen1 hband, zipWith_max_self]

/-- Witness for C3 on concrete in-band vectors. -/
theorem clipped_value_loss_in_band_witness :
    clippedValueLoss [1, 2] [0, 0] [1, 3] 2
      = tmean (List.zipWith (fun v r => (v - r) ^ 2) [(1 : ℚ), 2] [0, 0]) :=
  clipped_value_loss_in_band [1, 2] [0, 0] [1, 3] 2 (by decide) (by decide)
    (by
      intro j hj
      simp only [List.length_cons, List.length_nil] at hj
      interval_cases j <;>
        simp only [List.getD_cons_zero, List.getD_cons_succ] <;>
        rw [abs_le] <;> constructor <;> norm_num)

/-- `surr1 = ratios * advantages` (ppg.py line 242). -/
def surrOne (ratio advantage : ℚ) : ℚ := ratio * advantage

/-- `surr2 = ratios.clamp(1 - eps_clip, 1 + eps_clip) * advantages`
(ppg.py line 243). -/
def surrTwo (epsClip ratio advantage : ℚ) : ℚ :=
  clamp ratio (1 - epsClip) (1 + epsClip) * advantage

/-- Per-element policy loss
`-min(surr1, surr2) - beta_s * entropy` (ppg.py line 244). -/
def policyLossElem (epsClip betaS ratio advantage entropy : ℚ) : ℚ :=
  -(min (surrOne ratio advantage) (surrTwo epsClip ratio advantage)) - betaS * entropy

/-- C4 counterexample: at `ratio = 1` but `eps_clip = -1` (and
`advantage = 1`, `entropy = 0`, `beta_s = 0`), the clamp band is inverted,
`surr2 = 0 ≠ advantage` and the per-element policy loss is `0`, not
`-advantage - beta_s * entropy = -1`.  So the claim does not hold
"regardless of the value of eps_clip". -/
theorem ratio_one_policy_loss_counterexample :
    surrTwo (-1) 1 1 ≠ 1 ∧ policyLossElem (-1) 0 1 1 0 ≠ -1 - 0 * 0 := by
  constructor <;> norm_num [surrTwo, surrOne, policyLossElem, clamp]

/-- C4 (amended with `0 ≤ eps_clip`): when the importance ratio is `1` and
the clip radius is nonnegative, `surr1 = surr2 = advantage` and the
per-element policy loss is `-advantage - beta_s * entropy`, for every such
`eps_clip`. -/
theorem ratio_one_policy_loss (epsClip betaS ratio advantage entropy : ℚ)
    (hratio : ratio = 1) (heps : 0 ≤ epsClip) :
    surrOne ratio advantage = advantage ∧
    surrTwo epsClip ratio advantage = advantage ∧
    policyLossElem epsClip betaS ratio advantage entropy = -advantage - betaS * entropy := by
  subst hratio
  have hclamp : clamp 1 (1 - epsClip) (1 + epsClip) = 1 := by
    have h1 : 1 - epsClip ≤ 1 := by linarith
    have h2 : (1 : ℚ) ≤ 1 + epsClip := by linarith
    rw [clamp, max_eq_left h1, min_eq_left h2]
  simp [surrOne, surrTwo, policyLossElem, hclamp, min_self]

/-- Witness for the amended C4 at concrete inputs. -/
theorem ratio_one_policy_loss_witness :
    surrOne 1 3 = 3 ∧
    surrTwo (1 / 4) 1 3 = 3 ∧
    policyLossElem (1 / 4) 2 1 3 5 = -3 - 2 * 5 :=
  ratio_one_policy_loss (1 / 4) 2 1 3 5 rfl (by norm_num)

/-- The epsilon of `normalize` (ppg.py line 59): `1e-5`. -/
def epsNorm : ℚ := 1e-5

/-- Unbiased sample variance, matching the default of `torch.std` before the
square root: sum of squared deviations from the mean over `n - 1`. -/
def sampleVar (l : List ℚ) : ℚ :=
  (l.map (fun x => (x - tmean l) ^ 2)).sum / ((l.length : ℚ) - 1)

/-- `t.std()`: square root of the unbiased sample variance.  The square root
of the floating-point code is an external real-valued primitive; it enters
the embedding as a function parameter `sqrtFn`, which every implementation
of square root maps `0` to `0`. -/
def stdWith (sqrtFn : ℚ → ℚ) (l : List ℚ) : ℚ := sqrtFn (sampleVar l)

/-- `normalize(t) = (t - t.mean()) / (t.std() + eps)` (ppg.py lines 59-60). -/
def normalizeWith (sqrtFn : ℚ → ℚ) (eps : ℚ) (t : List ℚ) : List ℚ :=
  t.map (fun x => (x - tmean t) / (stdWith sqrtFn t + eps))

/-- `advantages = normalize(rewards - old_values.detach())` (ppg.py
line 241), with `rewards` holding the GAE returns. -/
def advantagesOf (sqrtFn : ℚ → ℚ) (returns oldValues : List ℚ) : List ℚ :=
  normalizeWith sqrtFn epsNorm (List.zipWith (fun r v => r - v) returns oldValues)

theorem tmean_const (c : ℚ) (l : List ℚ) (hne : l ≠ []) (h : ∀ x ∈ l, x = c) :
    tmean l = c := by
  have hn : (l.length : ℚ) ≠ 0 :=
    Nat.cast_ne_zero.mpr (Nat.pos_iff_ne_zero.mp (List.length_pos.mpr hne))
  rw [tmean, List.sum_eq_card_nsmul l c h, nsmul_eq_mul, mul_comm, mul_div_assoc]
  rw [div_self hn, mul_one]

/-- C8: the policy-phase advantage is `normalize(returns - old_values)`, and
on a degenerate batch (length at least `2`, all residuals equal) the
normalizer divides by the nonzero `std + 1e-5` and yields the all-zero
vector instead of failing. -/
theorem advantages_zero_variance (sqrtFn : ℚ → ℚ) (hsqrt : sqrtFn 0 = 0)
    (returns oldValues : List ℚ) (c : ℚ)
    (hlen : 2 ≤ (List.zipWith (fun r v => r - v) returns oldValues).length)
    (hconst : ∀ x ∈ List.zipWith (fun r v => r - v) returns oldValues, x = c) :
    advantagesOf sqrtFn returns oldValues
      = List.replicate (List.zipWith (fun r v => r - v) returns oldValues).length 0 ∧
    stdWith sqrtFn (List.zipWith (fun r v => r - v) returns oldValues) + epsNorm ≠ 0 := by
  set t := List.zipWith (fun r v => r - v) returns oldValues with ht
  have hne : t ≠ [] := by
    intro h0
    rw [h0] at hlen
    simp at hlen
  have hmean : tmean t = c := tmean_const c t hne hconst
  have hvar : sampleVar t = 0 := by
    rw [sampleVar]
    have hz : (t.map (fun x => (x - tmean t) ^ 2)).sum = 0 := by
      apply List.sum_eq_zero
      intro y hy
      obtain ⟨x, hx, rfl⟩ := List.mem_map.mp hy
      rw [hmean, hconst x hx]
      ring
    rw [hz, zero_div]
  have hstd : stdWith sqrtFn t = 0 := by rw [stdWith, hvar, hsqrt]
  refine ⟨?_, ?_⟩
  · rw [advantagesOf, ← ht, normalizeWith]
    have hlenm : (List.map (fun x => (x - tmean t) / (stdWith sqrtFn t + epsNorm)) t).length
        = t.length := by simp
    rw [← hlenm]
    apply List.eq_replicate_length.mpr
    intro b hb
    obtain ⟨x, hx, rfl⟩ := List.mem_map.mp hb
    rw [hmean, hconst x hx, sub_self, zero_div]
  · rw [hstd, zero_add]
    norm_num [epsNorm]

/-- Witness for C8 on a constant residual batch of size two. -/
theorem advantages_zero_variance_witness :
    advantagesOf (fun x => x) [5, 6] [2, 3]
      = List.replicate (List.zipWith (fun r v => r - v) [(5 : ℚ), 6] [2, 3]).length 0 ∧
    stdWith (fun x => x) (List.zipWith (fun r v => r - v) [(5 : ℚ), 6] [2, 3]) + epsNorm ≠ 0 :=
  advantages_zero_variance (fun x => x) rfl [5, 6] [2, 3] 3 (by decide)
    (by
      intro x hx
      simp only [List.zipWith_cons_cons, List.zipWith_nil_right, List.mem_cons] at hx
      rcases hx with h | h | h
      · rw [h]; norm_num
      · rw [h]; norm_num
      · exact absurd h (List.not_mem_nil x))

/-- Counter state of the training loop in `main` (ppg.py lines 396-440):
the global step counter `time`, the trajectory buffer length, the number of
completed policy updates, and the auxiliary buffer length.  Episode
boundaries reset none of these, so the loop body is modelled as a single
step relation applied once per environment step. -/
structure LoopState where
  time : ℕ
  memLen : ℕ
  numPolicyUpdates : ℕ
  auxLen : ℕ
deriving DecidableEq, Repr

/-- One environment step of the training loop (ppg.py lines 404-440):
`time` increments, one transition is appended; when `time` is a multiple of
`update_timesteps` (`u`), `learn` is invoked on the full buffer (its size is
the first returned option), which appends one auxiliary record before the
buffer is cleared; after the policy-update counter increments, when it is a
multiple of `num_policy_updates_per_aux` (`na`), `learn_aux` is invoked on
the auxiliary buffer (its size is the second returned option) and that
buffer is cleared. -/
def loopStepEvents (u na : ℕ) (s : LoopState) : LoopState × Option ℕ × Option ℕ :=
  let time := s.time + 1
  let memLen := s.memLen + 1
  if time % u = 0 then
    let npu := s.numPolicyUpdates + 1
    let auxLen := s.auxLen + 1
    if npu % na = 0 then
      (⟨time, 0, npu, 0⟩, some memLen, some auxLen)
    else
      (⟨time, 0, npu, auxLen⟩, some memLen, none)
  else
    (⟨time, memLen, s.numPolicyUpdates, s.auxLen⟩, none, none)

/-- The state part of one loop step. -/
def loopStep (u na : ℕ) (s : LoopState) : LoopState :=
  (loopStepEvents u na s).1

/-- The loop state after `n` environment steps, from the initial counters
`time = 0`, empty buffers, no completed updates (ppg.py lines 368-398). -/
def runLoop (u na : ℕ) : ℕ → LoopState
  | 0 => ⟨0, 0, 0, 0⟩
  | n + 1 => loopStep u na (runLoop u na n)

theorem mod_add_one_of_dvd (a b : ℕ) (hd : b ∣ a + 1) : a % b + 1 = b := by
  have e1 := Nat.div_add_mod a b
  have hz : (a + 1) % b = 0 := Nat.mod_eq_zero_of_dvd hd
  have e2 := Nat.div_add_mod (a + 1) b
  rw [Nat.succ_div_of_dvd hd, hz, Nat.add_zero, Nat.mul_add, Nat.mul_one] at e2
  have e4 : b * (a / b) + (a % b + 1) = a + 1 := by rw [← Nat.add_assoc, e1]
  exact Nat.add_left_cancel (e4.trans e2.symm)

theorem succ_mod_of_not_dvd (a b : ℕ) (hd : ¬b ∣ a + 1) : (a + 1) % b = a % b + 1 := by
  have e1 := Nat.div_add_mod a b
  have e2 := Nat.div_add_mod (a + 1) b
  rw [Nat.succ_div_of_not_dvd hd] at e2
  have e4 : b * (a / b) + (a % b + 1) = a + 1 := by rw [← Nat.add_assoc, e1]
  exact Nat.add_left_cancel (e2.trans e4.symm)

/-- Closed form of the loop counters: after `n` steps the trajectory buffer
holds `n % u` transitions, `n / u` policy updates have completed, and the
auxiliary buffer holds `n / u % na` records. -/
theorem runLoop_closed_form (u na : ℕ) (hu : 0 < u) (hna : 0 < na) :
    ∀ n, runLoop u na n = ⟨n, n % u, n / u, n / u % na⟩ := by
  intro n
  induction n with
  | zero => simp [runLoop]
  | succ n ih =>
    rw [runLoop, ih, loopStep, loopStepEvents]
    by_cases hd : u ∣ n + 1
    · have hm : (n + 1) % u = 0 := Nat.mod_eq_zero_of_dvd hd
      have hdiv : (n + 1) / u = n / u + 1 := Nat.succ_div_of_dvd hd
      by_cases hm2 : (n / u + 1) % na = 0
      · simp [hm, hdiv, hm2]
      · have hmod2 := succ_mod_of_not_dvd (n / u) na
          (fun h0 => hm2 (Nat.mod_eq_zero_of_dvd h0))
        simp [hm, hdiv, hm2, hmod2]
    · have hm : (n + 1) % u ≠ 0 := fun h0 => hd (Nat.dvd_of_mod_eq_zero h0)
      have hdiv : (n + 1) / u = n / u := Nat.succ_div_of_not_dvd hd
      have hmod := succ_mod_of_not_dvd n u hd
      simp [hm, hdiv, hmod]

/-- C2: a policy update fires at step `n+1` exactly when `n+1` is a multiple
of `update_timesteps` (`u`), counted globally across episodes, and `learn`
then receives exactly `u` transitions; an auxiliary update fires exactly
when, additionally, the incremented policy-update count is a multiple of
`num_policy_updates_per_aux` (`na`), and `learn_aux` then receives exactly
`na` auxiliary records. -/
theorem loop_trigger_cadence (u na : ℕ) (hu : 0 < u) (hna : 0 < na) (n : ℕ) :
    runLoop u na n = ⟨n, n % u, n / u, n / u % na⟩ ∧
    (loopStepEvents u na (runLoop u na n)).2.1
      = (if (n + 1) % u = 0 then some u else none) ∧
    (loopStepEvents u na (runLoop u na n)).2.2
      = (if (n + 1) % u = 0 ∧ (n + 1) / u % na = 0 then some na else none) := by
  refine ⟨runLoop_closed_form u na hu hna n, ?_, ?_⟩ <;>
    rw [runLoop_closed_form u na hu hna n, loopStepEvents] <;>
    by_cases hd : u ∣ n + 1
  · have hm : (n + 1) % u = 0 := Nat.mod_eq_zero_of_dvd hd
    have hsize : n % u + 1 = u := mod_add_one_of_dvd n u hd
    by_cases hm2 : (n / u + 1) % na = 0 <;> simp [hm, hsize, hm2]
  · have hm : (n + 1) % u ≠ 0 := fun h0 => hd (Nat.dvd_of_mod_eq_zero h0)
    simp [hm]
  · have hm : (n + 1) % u = 0 := Nat.mod_eq_zero_of_dvd hd
    have hdiv : (n + 1) / u = n / u + 1 := Nat.succ_div_of_dvd hd
    by_cases hm2 : (n / u + 1) % na = 0
    · have hsize2 : n / u % na + 1 = na :=
        mod_add_one_of_dvd (n / u) na (Nat.dvd_of_mod_eq_zero hm2)
      simp [hm, hdiv, hm2, hsize2]
    · simp [hm, hdiv, hm2]
  · have hm : (n + 1) % u ≠ 0 := fun h0 => hd (Nat.dvd_of_mod_eq_zero h0)
    simp [hm]

/-- Witness for C2 with `update_timesteps = 2`,
`num_policy_updates_per_aux = 2`, after `3` steps: step `4` triggers a
policy update on a full buffer of `2` and an auxiliary update on `2`
records. -/
theorem loop_trigger_cadence_witness :
    runLoop 2 2 3 = ⟨3, 1, 1, 1⟩ ∧
    (loopStepEvents 2 2 (runLoop 2 2 3)).2.1 = some 2 ∧
    (loopStepEvents 2 2 (runLoop 2 2 3)).2.2 = some 2 := by
  have h := loop_trigger_cadence 2 2 (by decide) (by decide) 3
  simpa using h

/-- The agent's parameter state: one flat store of parameter scalars for
both networks.  `self.actor`'s parameters are the indices below `nActor`;
`self.critic`'s parameters are the indices from `nActor` on.  The two
modules are distinct objects (ppg.py lines 149-150), so their parameter
sets are disjoint. -/
structure PPGParams where
  store : List ℚ
  nActor : ℕ
deriving DecidableEq, Repr

/-- An optimizer step over the flat store: the optimizer rewrites exactly
the parameters it owns (the tensors it was constructed with) using the
per-parameter update `f` (the backward pass plus Adam arithmetic of
`update_network_`, ppg.py lines 63-66, abstracted as an arbitrary update),
and leaves every other entry untouched.  `i` is the index of the first list
element. -/
def stepOwned (owned : ℕ → Bool) (f : ℕ → ℚ → ℚ) : ℕ → List ℚ → List ℚ
  | _, [] => []
  | i, x :: xs => (if owned i then f i x else x) :: stepOwned owned f (i + 1) xs

/-- `update_network_(policy_loss, self.opt_actor)` (ppg.py line 247):
`opt_actor = Adam(self.actor.parameters(), ...)` (line 151) owns exactly
the actor's parameters, the indices below `nActor`. -/
def stepActorOpt (f : ℕ → ℚ → ℚ) (p : PPGParams) : PPGParams :=
  ⟨stepOwned (fun i => decide (i < p.nActor)) f 0 p.store, p.nActor⟩

/-- `update_network_(value_loss, self.opt_critic)` (ppg.py line 256):
`opt_critic = Adam(self.critic.parameters(), ...)` (line 152) owns exactly
the critic's parameters, the indices from `nActor` on. -/
def stepCriticOpt (g : ℕ → ℚ → ℚ) (p : PPGParams) : PPGParams :=
  ⟨stepOwned (fun i => decide (p.nActor ≤ i)) g 0 p.store, p.nActor⟩

/-- One policy-phase minibatch iteration's two gradient steps, in source
order (ppg.py lines 240-256): first the actor optimizer on the policy loss,
then the critic optimizer on the value loss. -/
def policyPhaseMinibatchUpdate (fA fC : ℕ → ℚ → ℚ) (p : PPGParams) : PPGParams :=
  stepCriticOpt fC (stepActorOpt fA p)

theorem stepOwned_getD_not_owned (owned : ℕ → Bool) (f : ℕ → ℚ → ℚ) :
    ∀ (l : List ℚ) (i j : ℕ), owned (i + j) = false →
      (stepOwned owned f i l).getD j 0 = l.getD j 0 := by
  intro l
  induction l with
  | nil => intro i j _; rfl
  | cons x xs ih =>
    intro i j h
    match j with
    | 0 =>
      rw [Nat.add_zero] at h
      simp [stepOwned, h]
    | j + 1 =>
      have h2 : owned (i + 1 + j) = false := by
        rw [show i + 1 + j = i + (j + 1) by omega]
        exact h
      simp only [stepOwned, List.getD_cons_succ]
      exact ih (i + 1) j h2

/-- C7: in each policy-phase minibatch iteration, the actor-optimizer step
leaves every critic parameter unchanged, and the subsequent critic-optimizer
step leaves every actor parameter unchanged (so after both steps each actor
parameter is exactly what the actor step alone produced), for arbitrary
gradient updates `fA`, `fC`. -/
theorem policy_phase_separate_updates (fA fC : ℕ → ℚ → ℚ) (p : PPGParams) :
    (∀ i, p.nActor ≤ i → (stepActorOpt fA p).store.getD i 0 = p.store.getD i 0) ∧
    (∀ i, i < p.nActor →
      (policyPhaseMinibatchUpdate fA fC p).store.getD i 0
        = (stepActorOpt fA p).store.getD i 0) := by
  constructor
  · intro i hi
    have h : decide (i < p.nActor) = false := decide_eq_false (not_lt.mpr hi)
    have := stepOwned_getD_not_owned (fun j => decide (j < p.nActor)) fA p.store 0 i
      (by simpa using h)
    simpa [stepActorOpt] using this
  · intro i hi
    have h : decide (p.nActor ≤ i) = false := decide_eq_false (not_le.mpr hi)
    have := stepOwned_getD_not_owned (fun j => decide (p.nActor ≤ j)) fC
      (stepActorOpt fA p).store 0 i (by simpa using h)
    simpa [policyPhaseMinibatchUpdate, stepCriticOpt, stepActorOpt] using this

/-- Witness for C7 on a three-parameter store split two/one. -/
theorem policy_phase_separate_updates_witness :
    (stepActorOpt (fun _ x => x + 1) ⟨[1, 2, 3], 2⟩).store.getD 2 0
      = (⟨[1, 2, 3], 2⟩ : PPGParams).store.getD 2 0 ∧
    (policyPhaseMinibatchUpdate (fun _ x => x + 1) (fun _ x => x * 2)
        ⟨[1, 2, 3], 2⟩).store.getD 0 0
      = (stepActorOpt (fun _ x => x + 1) ⟨[1, 2, 3], 2⟩).store.getD 0 0 :=
  ⟨(policy_phase_separate_updates (fun _ x => x + 1) (fun _ x => x * 2) ⟨[1, 2, 3], 2⟩).1
      2 (by decide),
   (policy_phase_separate_updates (fun _ x => x + 1) (fun _ x => x * 2) ⟨[1, 2, 3], 2⟩).2
      0 (by decide)⟩

/-- One auxiliary record (`AuxMemory` namedtuple, ppg.py line 32): a batch
of states with their GAE-return targets and pre-update value estimates,
appended once per policy update (line 223). -/
structure AuxRecord where
  states : List (List ℚ)
  targetValue : List ℚ
  oldValues : List ℚ

/-- `torch.cat` on a list of tensors: raises (here: `none`) when the list
is empty, otherwise concatenates. -/
def torchCat {α : Type} (ls : List (List α)) : Option (List α) :=
  if ls.isEmpty then none else some ls.flatten

/-- `PPG.learn_aux` (ppg.py lines 258-309) at the level of agent
parameters: the three `torch.cat` calls on the per-record fields (lines
268-270) fail on an empty buffer; the pre-loop work (concatenation, the
detached forward pass for `old_action_probs`, the dataloader) mutates no
parameters; then the `for epoch in range(self.epochs_aux)` loop applies the
per-epoch minibatch updates (lines 283-309), abstracted as an arbitrary
parameter transformation `epochBody`, `epochsAux` times. -/
def learnAux (epochsAux : ℕ) (epochBody : PPGParams → PPGParams)
    (auxMemories : List AuxRecord) (p : PPGParams) : Option PPGParams := do
  let _allStates ← torchCat (auxMemories.map AuxRecord.states)
  let _allRewards ← torchCat (auxMemories.map AuxRecord.targetValue)
  let _allOldValues ← torchCat (auxMemories.map AuxRecord.oldValues)
  some (epochBody^[epochsAux] p)

/-- C9: on a non-empty auxiliary buffer, `learn_aux` with `epochs_aux = 0`
returns the parameters unchanged (the epoch loop body never runs and the
pre-loop work mutates nothing), whatever the per-epoch update would do. -/
theorem learn_aux_zero_epochs_noop (epochBody : PPGParams → PPGParams)
    (auxMemories : List AuxRecord) (p : PPGParams) (h : auxMemories ≠ []) :
    learnAux 0 epochBody auxMemories p = some p := by
  cases auxMemories with
  | nil => exact absurd rfl h
  | cons a rest => simp [learnAux, torchCat]

/-- Witness for C9 on a one-record buffer. -/
theorem learn_aux_zero_epochs_noop_witness :
    learnAux 0 (fun q => q) [⟨[[1]], [1], [1]⟩] (⟨[5], 1⟩ : PPGParams)
      = some ⟨[5], 1⟩ :=
  learn_aux_zero_epochs_noop (fun q => q) [⟨[[1]], [1], [1]⟩] ⟨[5], 1⟩
    (List.cons_ne_nil _ _)

/-- C10: `learn_aux` on an empty auxiliary buffer fails (the `torch.cat`
of the empty list of record fields raises), and on any non-empty buffer the
concatenations succeed: the unstated precondition is a buffer with at least
one record. -/
theorem learn_aux_empty_buffer_fails (epochsAux : ℕ) (epochBody : PPGParams → PPGParams)
    (p : PPGParams) :
    learnAux epochsAux epochBody [] p = none ∧
    ∀ auxMemories : List AuxRecord, auxMemories ≠ [] →
      (learnAux epochsAux epochBody auxMemories p).isSome = true := by
  constructor
  · rfl
  · intro auxMemories h
    cases auxMemories with
    | nil => exact absurd rfl h
    | cons a rest => simp [learnAux, torchCat]

/-- Witness for C10: the empty buffer fails, a one-record buffer succeeds. -/
theorem learn_aux_empty_buffer_fails_witness :
    learnAux 2 (fun q => q) [] (⟨[0], 0⟩ : PPGParams) = none ∧
    (learnAux 2 (fun q => q) [⟨[[1]], [1], [1]⟩] (⟨[0], 0⟩ : PPGParams)).isSome = true :=
  ⟨(learn_aux_empty_buffer_fails 2 (fun q => q) ⟨[0], 0⟩).1,
   (learn_aux_empty_buffer_fails 2 (fun q => q) ⟨[0], 0⟩).2 [⟨[[1]], [1], [1]⟩]
      (List.cons_ne_nil _ _)⟩

end Rlydoe
